import Mathlib

/-!
# Verification of the sender-quota / rotation engine of the bulk email dispatcher

Shallow embedding of `app.py` (single-file Flask application).  Python strings
are modelled as `String` (or `List Char` where character-level reasoning is
needed), the `email_accounts` table as a `List Account`, dates and timestamps
as `Nat` (a later calendar day / creation instant is a larger number), and the
daily limit constant as a `Nat`.
-/

/-- The constant `EMAIL_LIMIT_PER_ACCOUNT = 15` from the configuration section of `app.py`. -/
def EMAIL_LIMIT_PER_ACCOUNT : Nat := 15

/-- One row of the `email_accounts` table (schema in `init_database`).
`owner` is the `user_id` foreign key; `last_reset` is a date, `created_at` a
timestamp, both encoded as `Nat`. -/
structure Account where
  owner : Nat
  email : String
  password : String
  is_active : Bool
  sent_count : Nat
  last_reset : Nat
  default_cc : String
  default_bcc : String
  created_at : Nat
deriving DecidableEq, Repr

/-- A Python string, modelled as its character sequence (the Lean `String`
primitives are not reducible by the kernel, `List Char` is). -/
abbrev PyStr := List Char

/-- The character sequence of a Lean string literal. -/
def pyStr (s : String) : PyStr := s.data

/-- The Python split of a string on a one-character separator: split at every
occurrence, keeping empty fragments. -/
def splitOnChar (sep : Char) : PyStr → List PyStr
  | [] => [[]]
  | c :: rest =>
    match splitOnChar sep rest with
    | [] => if c = sep then [[], []] else [[c]]
    | g :: gs => if c = sep then [] :: g :: gs else (c :: g) :: gs

/-- The Python strip operation: drop leading and trailing whitespace. -/
def pyStrip (l : PyStr) : PyStr :=
  ((l.dropWhile Char.isWhitespace).reverse.dropWhile Char.isWhitespace).reverse

/-- Function `parse_email_list` from `app.py`: empty string gives `[]`; otherwise split
on commas, strip each entry, keep the non-empty ones. -/
def parse_email_list (email_string : PyStr) : List PyStr :=
  if email_string = [] then []
  else ((splitOnChar ',' email_string).map pyStrip).filter (fun e => decide (e ≠ []))

/-- The Python idiom `list(dict.fromkeys(l))`: iterate `l`, appending each element the
first time it is seen.  Used by `merge_cc_bcc_lists`. -/
def dict_fromkeys (l : List PyStr) : List PyStr :=
  l.foldl (fun acc x => if x ∈ acc then acc else acc ++ [x]) []

/-- Function `merge_cc_bcc_lists` from `app.py`: parse the four comma-separated inputs
and deduplicate `form ++ default` for CC and BCC, preserving order. -/
def merge_cc_bcc_lists (form_cc form_bcc default_cc default_bcc : PyStr) :
    List PyStr × List PyStr :=
  let form_cc_list := if form_cc ≠ [] then parse_email_list form_cc else []
  let form_bcc_list := if form_bcc ≠ [] then parse_email_list form_bcc else []
  let default_cc_list := if default_cc ≠ [] then parse_email_list default_cc else []
  let default_bcc_list := if default_bcc ≠ [] then parse_email_list default_bcc else []
  (dict_fromkeys (form_cc_list ++ default_cc_list),
   dict_fromkeys (form_bcc_list ++ default_bcc_list))

/-- Specification-level ordered deduplication: keep the first occurrence,
drop every later duplicate. -/
def orderedUniqueSpec : List PyStr → List PyStr
  | [] => []
  | x :: xs => x :: orderedUniqueSpec (xs.filter (fun y => decide (y ≠ x)))
termination_by l => l.length
decreasing_by
  simp only [List.length_cons]
  exact Nat.lt_succ_of_le (List.length_filter_le _ _)

/-- Function `reset_daily_counts` from `app.py`:
`UPDATE email_accounts SET sent_count = 0, last_reset = today
 WHERE user_id = user_id AND last_reset < today`. -/
def reset_daily_counts (user_id today : Nat) (db : List Account) : List Account :=
  db.map fun a =>
    if a.owner = user_id ∧ a.last_reset < today then
      { a with sent_count := 0, last_reset := today }
    else a

/-- Strict lexicographic comparison of selection keys, mirroring
`ORDER BY k1 ASC, k2 ASC` preferring the row with the smaller key. -/
def keyLt (p q : Nat × Nat) : Prop :=
  p.1 < q.1 ∨ (p.1 = q.1 ∧ p.2 < q.2)

/-- Reflexive lexicographic comparison of selection keys. -/
def keyLe (p q : Nat × Nat) : Prop :=
  p.1 < q.1 ∨ (p.1 = q.1 ∧ p.2 ≤ q.2)

instance (p q : Nat × Nat) : Decidable (keyLt p q) := by
  unfold keyLt; infer_instance

/-- One comparison step of `ORDER BY ... LIMIT 1`: keep the better of two rows
(the incumbent wins ties, making the fold deterministic). -/
def pickBest (key : Account → Nat × Nat) (b c : Account) : Account :=
  if keyLt (key c) (key b) then c else b

/-- The query `ORDER BY key ASC LIMIT 1` over a list of rows: the row with the
lexicographically least key, `none` on an empty result set. -/
def pickMinBy (key : Account → Nat × Nat) : List Account → Option Account
  | [] => none
  | a :: as => some (as.foldl (pickBest key) a)

/-- Row filter of the first query in `get_available_sender`:
`user_id = %s AND is_active = TRUE AND sent_count < EMAIL_LIMIT_PER_ACCOUNT`. -/
def eligibleFilter (user_id : Nat) (a : Account) : Bool :=
  a.owner == user_id && a.is_active && decide (a.sent_count < EMAIL_LIMIT_PER_ACCOUNT)

/-- Row filter of the fallback query: `user_id = %s AND is_active = TRUE`. -/
def activeFilter (user_id : Nat) (a : Account) : Bool :=
  a.owner == user_id && a.is_active

/-- Sort key of the first query: `ORDER BY sent_count ASC, created_at ASC`. -/
def senderKey (a : Account) : Nat × Nat := (a.sent_count, a.created_at)

/-- Sort key of the fallback query: `ORDER BY created_at ASC`. -/
def createdKey (a : Account) : Nat × Nat := (a.created_at, 0)

/-- Function `get_available_sender` from `app.py`: reset stale daily counts, then pick
the active under-limit account with the least (sent_count, created_at); if none
qualifies, fall back to the earliest-created active account; with no active
account at all, return `none` (modelling the all-None tuple of the source).
The source returns the fields (email, password, default_cc, default_bcc) of the row. -/
def get_available_sender (user_id today : Nat) (db : List Account) :
    Option (String × String × String × String) :=
  let db' := reset_daily_counts user_id today db
  match pickMinBy senderKey (db'.filter (eligibleFilter user_id)) with
  | some a => some (a.email, a.password, a.default_cc, a.default_bcc)
  | none =>
    match pickMinBy createdKey (db'.filter (activeFilter user_id)) with
    | some a => some (a.email, a.password, a.default_cc, a.default_bcc)
    | none => none

/-- The `UPDATE email_accounts SET sent_count = sent_count + 1
WHERE email = %s AND user_id = %s` statement executed by `send_email_smtp`
after a successful transmission. -/
def record_send (user_id : Nat) (sender_email : String) (db : List Account) :
    List Account :=
  db.map fun a =>
    if a.email = sender_email ∧ a.owner = user_id then
      { a with sent_count := a.sent_count + 1 }
    else a

/-- Outcome of the external SMTP transmission (`server.sendmail` and the
connection/login steps around it), which `app.py` treats as an atomic
fallible call. -/
inductive TransportResult where
  | ok : TransportResult
  | err : String → TransportResult
deriving DecidableEq, Repr

/-- Return value and database effect of `send_email_smtp`. -/
structure SmtpSendResult where
  success : Bool
  message : String
  db : List Account
deriving DecidableEq, Repr

/-- Function `send_email_smtp` from `app.py`, with the SMTP transmission outcome as a
parameter.  The whole body is wrapped in `try/except`: an exception during
transmission returns `(False, str(e))` before the counter `UPDATE` runs;
on success the counter of the `(user_id, sender_email)` account is
incremented and `(True, "Email sent successfully")` is returned. -/
def send_email_smtp (transport : TransportResult) (user_id : Nat)
    (sender_email : String) (db : List Account) : SmtpSendResult :=
  match transport with
  | .err m => { success := false, message := m, db := db }
  | .ok => { success := true, message := "Email sent successfully",
             db := record_send user_id sender_email db }

/-- One row of the `email_status` table as inserted by `save_email_log`. -/
structure StatusRow where
  recipient_email : PyStr
  sender_email : Option PyStr
  status : PyStr
  error_message : Option PyStr
deriving DecidableEq, Repr

/-- Python's `s.split(':', 1)`: the part before the first colon and the
remainder after it (the whole string and `[]` when there is no colon). -/
def splitColonOnce : PyStr → PyStr × PyStr
  | [] => ([], [])
  | c :: rest =>
    if c = ':' then ([], rest)
    else
      let p := splitColonOnce rest
      (c :: p.1, p.2)

/-- Row inserted for an entry of the success list of the log data. -/
def mkSuccessRow (sender : Option PyStr) (e : PyStr) : StatusRow :=
  { recipient_email := e, sender_email := sender, status := pyStr "success",
    error_message := none }

/-- Row inserted for an entry of the failure list of the log data containing a
colon: recipient = stripped part before the first colon, error = stripped
remainder. -/
def mkFailedRow (sender : Option PyStr) (f : PyStr) : StatusRow :=
  let p := splitColonOnce f
  { recipient_email := pyStrip p.1, sender_email := sender, status := pyStr "failed",
    error_message := some (pyStrip p.2) }

/-- The `email_status` rows inserted by `save_email_log`: one loop over
`success_emails`, then one loop over `failed_emails` that inserts a row only
when the entry contains a colon (`if ':' in failed_entry`). -/
def save_email_log_status_rows (sender : Option PyStr)
    (success_emails failed_emails : List PyStr) : List StatusRow :=
  let rows := success_emails.foldl (fun acc e => acc ++ [mkSuccessRow sender e]) []
  failed_emails.foldl
    (fun acc f => if f.contains ':' then acc ++ [mkFailedRow sender f] else acc) rows

/-- Outcome of a manual-mode (pinned-sender) campaign start. -/
inductive ManualOutcome where
  | rejectedNoSender : ManualOutcome
  | rejectedShortfall : Nat → ManualOutcome
  | ran : Nat → ManualOutcome
deriving DecidableEq, Repr

/-- Number of transport calls a manual-mode campaign performs: none when the
campaign is rejected up front, one per valid recipient when it runs. -/
def manualTransportCalls : ManualOutcome → Nat
  | .rejectedNoSender => 0
  | .rejectedShortfall _ => 0
  | .ran n => n

/-- Modelled from the spec: `send_bulk_emails_single_sender`, the manual-mode
dispatch entry point, is invoked by the `send_emails` route in `app.py` but its
definition is absent from the source file.  Per spec §4.2 (Manual policy):
after the daily reset, verify the pinned sender is active and owned by the
requester, and that its remaining quota (`limit - sent_count`) is at least the
count of valid recipients; otherwise reject up front with the shortfall
`requested - remaining` and perform no transport call; when accepted the
dispatch loop performs one transport call per valid recipient. -/
def send_bulk_emails_single_sender (user_id today : Nat) (sender_email : String)
    (valid_recipients : List String) (db : List Account) : ManualOutcome :=
  let db' := reset_daily_counts user_id today db
  match db'.find? (fun a => a.owner == user_id && a.email == sender_email && a.is_active) with
  | none => .rejectedNoSender
  | some acc =>
    let remaining := EMAIL_LIMIT_PER_ACCOUNT - acc.sent_count
    if remaining < valid_recipients.length then
      .rejectedShortfall (valid_recipients.length - remaining)
    else
      .ran valid_recipients.length

/-- ASCII apostrophe (39) and double quote (34). -/
def squote : Char := Char.ofNat 39

/-- ASCII double quote. -/
def dquote : Char := Char.ofNat 34

/-- The Python string replace scanning step: walk the string left to
right, replacing every non-overlapping occurrence of `pat` and continuing
after the replacement.  `fuel` is an upper bound on the number of steps
(structural recursion so that the kernel can evaluate it). -/
def replaceAux (pat rep : PyStr) : Nat → PyStr → PyStr
  | _, [] => []
  | 0, l => l
  | fuel + 1, c :: rest =>
    if pat ≠ [] ∧ pat.isPrefixOf (c :: rest) then
      rep ++ replaceAux pat rep fuel (rest.drop (pat.length - 1))
    else
      c :: replaceAux pat rep fuel rest

/-- The Python string replace operation for a non-empty pattern. -/
def pyReplace (l pat rep : PyStr) : PyStr := replaceAux pat rep l.length l

/-- The replacement texts used by the Python `html.escape` function and by
`format_email_content`. -/
def escAmp : PyStr := ['&', 'a', 'm', 'p', ';']

/-- Escape text for the less-than sign. -/
def escLt : PyStr := ['&', 'l', 't', ';']

/-- Escape text for the greater-than sign. -/
def escGt : PyStr := ['&', 'g', 't', ';']

/-- Escape text for the double quote. -/
def escQuot : PyStr := ['&', 'q', 'u', 'o', 't', ';']

/-- Escape text for the apostrophe. -/
def escApos : PyStr := ['&', '#', 'x', '2', '7', ';']

/-- The line-break tag. -/
def brTag : PyStr := ['<', 'b', 'r', '>']

/-- Two consecutive line-break tags. -/
def brTag2 : PyStr := ['<', 'b', 'r', '>', '<', 'b', 'r', '>']

/-- One non-breaking space entity. -/
def nbsp : PyStr := ['&', 'n', 'b', 's', 'p', ';']

/-- Two non-breaking space entities. -/
def nbsp2 : PyStr := nbsp ++ nbsp

/-- Four non-breaking space entities. -/
def nbsp4 : PyStr := nbsp ++ nbsp ++ nbsp ++ nbsp

/-- The placeholder `|||DOUBLE_BREAK|||` used by `format_email_content`. -/
def DBLBRK : PyStr :=
  ['|', '|', '|', 'D', 'O', 'U', 'B', 'L', 'E', '_', 'B', 'R', 'E', 'A', 'K', '|', '|', '|']

/-- The fragment of the placeholder stripped of its first pipe and its
closing pipes. -/
def dblBreakFrag : PyStr :=
  ['|', '|', 'D', 'O', 'U', 'B', 'L', 'E', '_', 'B', 'R', 'E', 'A', 'K']

/-- The placeholder stripped of its closing pipes. -/
def dblBreakPre : PyStr := '|' :: dblBreakFrag

/-- The Python `html.escape` function (with its default quoting of both quote characters), as called by
`format_email_content`: five successive `str.replace` passes. -/
def html_escape (l : PyStr) : PyStr :=
  let l := pyReplace l ['&'] escAmp
  let l := pyReplace l ['<'] escLt
  let l := pyReplace l ['>'] escGt
  let l := pyReplace l [dquote] escQuot
  pyReplace l [squote] escApos

/-- The fixed-style `<div>` wrapper of `format_email_content` (the f-string at
the end of the function), with the body text spliced in the middle. -/
def wrapPre : PyStr :=
  pyStr "\n    <div style=\"font-family: " ++ [squote] ++ pyStr "Segoe UI" ++ [squote] ++
    pyStr ", Tahoma, Geneva, Verdana, sans-serif; \n                font-size: 14px; \n                line-height: 1.2; \n                color: #333333;\n                margin: 0;\n                padding: 0;\">\n        "

/-- Closing part of the wrapper. -/
def wrapPost : PyStr := pyStr "\n    </div>\n    "

/-- The wrapped html content assembled at the end of `format_email_content`. -/
def wrapDiv (content : PyStr) : PyStr := wrapPre ++ content ++ wrapPost

/-- Function `format_email_content` from `app.py`: escape HTML, normalize line endings,
convert breaks via the `|||DOUBLE_BREAK|||` placeholder, convert space pairs
and tabs to `&nbsp;` runs, and wrap in the styled `<div>`. -/
def format_email_content (content : PyStr) : PyStr :=
  let c := html_escape content
  let c := pyReplace c ['\r', '\n'] ['\n']
  let c := pyReplace c ['\r'] ['\n']
  let c := pyReplace c ['\n', '\n'] DBLBRK
  let c := pyReplace c ['\n'] brTag
  let c := pyReplace c DBLBRK brTag2
  let c := pyReplace c [' ', ' '] nbsp2
  let c := pyReplace c ['\t'] nbsp4
  wrapDiv c

/-- Character-level specification of HTML escaping: each character is mapped
independently to its escape sequence. -/
def escapeChar (c : Char) : PyStr :=
  if c = '&' then escAmp
  else if c = '<' then escLt
  else if c = '>' then escGt
  else if c = dquote then escQuot
  else if c = squote then escApos
  else [c]

/-- Character-level specification: HTML-escape the text. -/
def escapeSpec (l : PyStr) : PyStr := l.flatMap escapeChar

/-- Character-level specification: normalize CRLF and CR to LF. -/
def normalizeSpec : PyStr → PyStr
  | [] => []
  | [c] => if c = '\r' then ['\n'] else [c]
  | c1 :: c2 :: rest =>
    if c1 = '\r' ∧ c2 = '\n' then '\n' :: normalizeSpec rest
    else if c1 = '\r' then '\n' :: normalizeSpec (c2 :: rest)
    else c1 :: normalizeSpec (c2 :: rest)

/-- Character-level specification: a blank line (two consecutive breaks)
becomes two `<br>` tags, a single break one `<br>` tag. -/
def breaksSpec : PyStr → PyStr
  | [] => []
  | [c] => if c = '\n' then brTag else [c]
  | c1 :: c2 :: rest =>
    if c1 = '\n' ∧ c2 = '\n' then brTag2 ++ breaksSpec rest
    else if c1 = '\n' then brTag ++ breaksSpec (c2 :: rest)
    else c1 :: breaksSpec (c2 :: rest)

/-- Character-level specification: each pair of literal spaces becomes two
`&nbsp;`, each tab four `&nbsp;`. -/
def spacesSpec : PyStr → PyStr
  | [] => []
  | [c] => if c = '\t' then nbsp4 else [c]
  | c1 :: c2 :: rest =>
    if c1 = ' ' ∧ c2 = ' ' then nbsp2 ++ spacesSpec rest
    else if c1 = '\t' then nbsp4 ++ spacesSpec (c2 :: rest)
    else c1 :: spacesSpec (c2 :: rest)

/-- First break-conversion pass of `format_email_content`
(blank line to the placeholder), character-level form. -/
def placeholderSpec : PyStr → PyStr
  | [] => []
  | [c] => [c]
  | c1 :: c2 :: rest =>
    if c1 = '\n' ∧ c2 = '\n' then DBLBRK ++ placeholderSpec rest
    else c1 :: placeholderSpec (c2 :: rest)

/-- Substring occurrence test on character lists. -/
def containsSeq (pat : PyStr) : PyStr → Bool
  | [] => pat.isEmpty
  | c :: rest => pat.isPrefixOf (c :: rest) || containsSeq pat rest

/-- The MIME message assembled by `send_email_smtp` before transmission:
From/To/Subject headers, optional CC header, plain-text part = rendered body
verbatim, HTML part = `format_email_content(body)`. -/
structure MimeMessage where
  from_addr : String
  to_addr : String
  subject : PyStr
  cc_header : Option (List String)
  text_part : PyStr
  html_part : PyStr
deriving DecidableEq, Repr

/-- Message assembly of `send_email_smtp`: the plain part keeps the body as
typed, the HTML part is `format_email_content(body)`, and neither depends on
anything but the arguments shown. -/
def build_email_message (sender_email recipient_email : String) (subject body : PyStr)
    (cc_emails : Option (List String)) : MimeMessage :=
  { from_addr := sender_email, to_addr := recipient_email, subject := subject,
    cc_header := cc_emails, text_part := body,
    html_part := format_email_content body }

/-- Character map of the `'\r'` to `'\n'` replacement. -/
private def subCR (c : Char) : PyStr := if c = '\r' then ['\n'] else [c]

/-- Character map of the `'\n'` to `<br>` replacement. -/
private def subNL (c : Char) : PyStr := if c = '\n' then brTag else [c]

/-- Character map of the `'\t'` to four-`&nbsp;` replacement. -/
private def subTab (c : Char) : PyStr := if c = '\t' then nbsp4 else [c]

section MergeLemmas

private lemma dict_fromkeys_aux (l : List PyStr) :
    ∀ acc : List PyStr,
      l.foldl (fun acc x => if x ∈ acc then acc else acc ++ [x]) acc =
        acc ++ orderedUniqueSpec (l.filter (fun y => decide (y ∉ acc))) := by
  induction l with
  | nil => intro acc; simp [orderedUniqueSpec]
  | cons x xs ih =>
    intro acc
    by_cases hx : x ∈ acc
    · simp only [List.foldl_cons, if_pos hx, List.filter_cons,
        decide_eq_true_eq, hx, not_true_eq_false, decide_False, if_false, ite_false]
      exact ih acc
    · have hstep : (if x ∈ acc then acc else acc ++ [x]) = acc ++ [x] := if_neg hx
      have hcons : (x :: xs).filter (fun y => decide (y ∉ acc)) =
          x :: xs.filter (fun y => decide (y ∉ acc)) := by
        simp [List.filter_cons, hx]
      rw [List.foldl_cons, hstep, ih (acc ++ [x]), hcons, orderedUniqueSpec]
      have hfilter :
          xs.filter (fun y => decide (y ∉ acc ++ [x])) =
            (xs.filter (fun y => decide (y ∉ acc))).filter (fun y => decide (y ≠ x)) := by
        rw [List.filter_filter]
        apply List.filter_congr
        intro y _
        by_cases h1 : y ∈ acc <;> by_cases h2 : y = x <;> simp [h1, h2]
      rw [hfilter]
      simp

/-- Lemma: `dict_fromkeys` computes the specification-level ordered deduplication. -/
lemma dict_fromkeys_eq_spec (l : List PyStr) :
    dict_fromkeys l = orderedUniqueSpec l := by
  have h := dict_fromkeys_aux l []
  simpa [dict_fromkeys] using h

end MergeLemmas

section ReplaceLemmas

private lemma isPrefixOf_append_self (p t : PyStr) : p.isPrefixOf (p ++ t) = true :=
  List.isPrefixOf_iff_prefix.mpr (List.prefix_append p t)

private lemma replaceAux_nil (pat rep : PyStr) (f : Nat) :
    replaceAux pat rep f [] = [] := by
  cases f <;> rfl

private lemma replaceAux_fuel (pat rep : PyStr) :
    ∀ f1 f2 l, l.length ≤ f1 → l.length ≤ f2 →
      replaceAux pat rep f1 l = replaceAux pat rep f2 l := by
  intro f1
  induction f1 with
  | zero =>
    intro f2 l h1 _
    have hl : l = [] := List.eq_nil_of_length_eq_zero (Nat.le_zero.mp h1)
    subst hl
    rw [replaceAux_nil, replaceAux_nil]
  | succ f1 ih =>
    intro f2 l h1 h2
    match l with
    | [] => rw [replaceAux_nil, replaceAux_nil]
    | c :: rest =>
      obtain ⟨f2p, rfl⟩ : ∃ k, f2 = k + 1 := by
        cases f2 with
        | zero => simp at h2
        | succ k => exact ⟨k, rfl⟩
      simp only [List.length_cons] at h1 h2
      simp only [replaceAux]
      split
      · congr 1
        apply ih
        · have := List.length_drop (pat.length - 1) rest
          omega
        · have := List.length_drop (pat.length - 1) rest
          omega
      · congr 1
        apply ih <;> omega

private lemma pyReplace_nil (pat rep : PyStr) : pyReplace [] pat rep = [] := rfl

/-- Stepping `str.replace` at an occurrence of the pattern. -/
private lemma pyReplace_cons_match (pat rep Y : PyStr) (hne : pat ≠ []) :
    pyReplace (pat ++ Y) pat rep = rep ++ pyReplace Y pat rep := by
  match pat, hne with
  | p0 :: ptail, _ =>
    show replaceAux (p0 :: ptail) rep ((p0 :: ptail) ++ Y).length (p0 :: (ptail ++ Y)) = _
    have hlen : ((p0 :: ptail) ++ Y).length = (ptail ++ Y).length + 1 := by simp
    rw [hlen]
    simp only [replaceAux]
    rw [if_pos]
    · have hdrop : (ptail ++ Y).drop ((p0 :: ptail).length - 1) = Y := by
        have : (p0 :: ptail).length - 1 = ptail.length := by simp
        rw [this, List.drop_left]
      rw [hdrop]
      congr 1
      apply replaceAux_fuel
      · simp
      · exact le_rfl
    · refine ⟨by simp, ?_⟩
      have h := isPrefixOf_append_self (p0 :: ptail) Y
      simp only [List.cons_append] at h
      exact h

/-- Stepping `str.replace` where the pattern does not match. -/
private lemma pyReplace_cons_nomatch (pat rep : PyStr) (c : Char) (rest : PyStr)
    (h : pat.isPrefixOf (c :: rest) = false) :
    pyReplace (c :: rest) pat rep = c :: pyReplace rest pat rep := by
  show replaceAux pat rep (rest.length + 1) (c :: rest) = _
  simp only [replaceAux]
  rw [if_neg]
  · rfl
  · rintro ⟨-, hp⟩
    rw [h] at hp
    exact Bool.false_ne_true hp

private lemma isPrefixOf_single (a c : Char) (rest : PyStr) :
    [a].isPrefixOf (c :: rest) = (a == c) := by
  show (a == c && List.isPrefixOf [] rest) = (a == c)
  simp

/-- A single-character `str.replace` maps each character independently. -/
private lemma replaceAux_single (a : Char) (rep : PyStr) :
    ∀ f l, l.length ≤ f →
      replaceAux [a] rep f l = l.flatMap (fun c => if c = a then rep else [c]) := by
  intro f
  induction f with
  | zero =>
    intro l h
    have hl : l = [] := List.eq_nil_of_length_eq_zero (Nat.le_zero.mp h)
    subst hl
    simp [replaceAux_nil]
  | succ f ih =>
    intro l h
    match l with
    | [] => simp [replaceAux_nil]
    | c :: rest =>
      simp only [List.length_cons] at h
      have hrest : rest.length ≤ f := by omega
      simp only [replaceAux, List.flatMap_cons]
      by_cases hca : c = a
      · subst hca
        rw [if_pos ⟨by simp, by rw [isPrefixOf_single]; simp⟩]
        simp only [List.length_cons, List.length_nil, Nat.zero_add, Nat.sub_self,
          List.drop_zero]
        rw [ih rest hrest]
        simp
      · rw [if_neg, ih rest hrest, if_neg hca]
        · rfl
        · rintro ⟨-, hp⟩
          rw [isPrefixOf_single] at hp
          exact hca (beq_iff_eq.mp hp).symm

/-- Lemma: `pyReplace` with a single-character pattern is a character map. -/
private lemma pyReplace_single (a : Char) (rep l : PyStr) :
    pyReplace l [a] rep = l.flatMap (fun c => if c = a then rep else [c]) :=
  replaceAux_single a rep l.length l le_rfl

end ReplaceLemmas

section StageLemmas

private lemma containsSeq_cons_false {pat : PyStr} {c : Char} {rest : PyStr}
    (h : containsSeq pat (c :: rest) = false) :
    pat.isPrefixOf (c :: rest) = false ∧ containsSeq pat rest = false := by
  have h2 := h
  rw [containsSeq] at h2
  exact Bool.or_eq_false_iff.mp h2

private lemma isPrefixOf_of_append_left {p q l : PyStr}
    (h : (p ++ q).isPrefixOf l = true) : p.isPrefixOf l = true :=
  List.isPrefixOf_iff_prefix.mpr
    ((List.prefix_append p q).trans (List.isPrefixOf_iff_prefix.mp h))

private lemma isPrefixOf_cons_head_ne {p : PyStr} {a c : Char} {pt t : PyStr}
    (hp : p = a :: pt) (h : a ≠ c) : p.isPrefixOf (c :: t) = false := by
  subst hp
  show ((a == c) && List.isPrefixOf pt t) = false
  simp [h]

private lemma isPrefixOf_cons_cons {a c : Char} {pt t : PyStr} :
    (a :: pt).isPrefixOf (c :: t) = ((a == c) && pt.isPrefixOf t) := rfl

/-- Lemma: `html.escape` equals the character-by-character escaping map. -/
lemma html_escape_eq_spec (l : PyStr) : html_escape l = escapeSpec l := by
  unfold html_escape escapeSpec
  rw [pyReplace_single, pyReplace_single, pyReplace_single, pyReplace_single,
    pyReplace_single, List.flatMap_assoc, List.flatMap_assoc, List.flatMap_assoc,
    List.flatMap_assoc]
  apply List.flatMap_congr
  intro c _
  by_cases h1 : c = '&'
  · subst h1; decide
  · by_cases h2 : c = '<'
    · subst h2; decide
    · by_cases h3 : c = '>'
      · subst h3; decide
      · by_cases h4 : c = dquote
        · subst h4; decide
        · by_cases h5 : c = squote
          · subst h5; decide
          · simp [h1, h2, h3, h4, h5, escapeChar]

/-- The two line-ending replacement passes equal the character-level
normalization. -/
lemma normalize_chain_spec :
    ∀ n l, l.length ≤ n →
      (pyReplace l ['\r', '\n'] ['\n']).flatMap subCR = normalizeSpec l := by
  intro n
  induction n with
  | zero =>
    intro l h
    have hl : l = [] := List.eq_nil_of_length_eq_zero (Nat.le_zero.mp h)
    subst hl
    simp [pyReplace_nil, normalizeSpec]
  | succ n ih =>
    intro l h
    match l with
    | [] => simp [pyReplace_nil, normalizeSpec]
    | c :: rest =>
      simp only [List.length_cons] at h
      by_cases hc : c = '\r'
      · subst hc
        match rest with
        | [] =>
          have hnm : (['\r', '\n'] : PyStr).isPrefixOf ['\r'] = false := by decide
          rw [pyReplace_cons_nomatch _ _ _ _ hnm, pyReplace_nil]
          simp [normalizeSpec, subCR]
        | c2 :: rest2 =>
          by_cases hc2 : c2 = '\n'
          · subst hc2
            have hm := pyReplace_cons_match ['\r', '\n'] ['\n'] rest2 (by simp)
            simp only [List.cons_append, List.nil_append] at hm
            rw [hm]
            simp only [List.singleton_append, List.flatMap_cons]
            rw [ih rest2 (by simp only [List.length_cons] at h; omega)]
            simp [normalizeSpec, subCR]
          · have hnm : (['\r', '\n'] : PyStr).isPrefixOf ('\r' :: c2 :: rest2) = false := by
              rw [isPrefixOf_cons_cons]
              have : (['\n'] : PyStr).isPrefixOf (c2 :: rest2) = false :=
                isPrefixOf_cons_head_ne rfl (fun heq => hc2 heq.symm)
              simp [this]
            rw [pyReplace_cons_nomatch _ _ _ _ hnm]
            simp only [List.flatMap_cons]
            rw [ih (c2 :: rest2) (by simp only [List.length_cons] at h ⊢; omega)]
            have hspec : normalizeSpec ('\r' :: c2 :: rest2) =
                '\n' :: normalizeSpec (c2 :: rest2) := by
              rw [normalizeSpec]
              rw [if_neg (by rintro ⟨-, h⟩; exact hc2 h), if_pos rfl]
            rw [hspec]
            simp [subCR]
      · have hnm : (['\r', '\n'] : PyStr).isPrefixOf (c :: rest) = false :=
          isPrefixOf_cons_head_ne rfl (fun heq => hc heq.symm)
        rw [pyReplace_cons_nomatch _ _ _ _ hnm]
        simp only [List.flatMap_cons]
        rw [ih rest (by omega)]
        have hsub : subCR c = [c] := by simp [subCR, hc]
        rw [hsub]
        match rest with
        | [] => simp [normalizeSpec, hc]
        | c2 :: rest2 =>
          have hspec : normalizeSpec (c :: c2 :: rest2) =
              c :: normalizeSpec (c2 :: rest2) := by
            rw [normalizeSpec]
            rw [if_neg (by rintro ⟨h, -⟩; exact hc h), if_neg hc]
          rw [hspec]
          rfl

/-- The blank-line pass (blank line to the placeholder) equals its
character-level form. -/
lemma placeholder_chain_spec :
    ∀ n l, l.length ≤ n →
      pyReplace l ['\n', '\n'] DBLBRK = placeholderSpec l := by
  intro n
  induction n with
  | zero =>
    intro l h
    have hl : l = [] := List.eq_nil_of_length_eq_zero (Nat.le_zero.mp h)
    subst hl
    simp [pyReplace_nil, placeholderSpec]
  | succ n ih =>
    intro l h
    match l with
    | [] => simp [pyReplace_nil, placeholderSpec]
    | c :: rest =>
      simp only [List.length_cons] at h
      by_cases hc : c = '\n'
      · subst hc
        match rest with
        | [] =>
          have hnm : (['\n', '\n'] : PyStr).isPrefixOf ['\n'] = false := by decide
          rw [pyReplace_cons_nomatch _ _ _ _ hnm, pyReplace_nil]
          simp [placeholderSpec]
        | c2 :: rest2 =>
          by_cases hc2 : c2 = '\n'
          · subst hc2
            have hm := pyReplace_cons_match ['\n', '\n'] DBLBRK rest2 (by simp)
            simp only [List.cons_append, List.nil_append] at hm
            rw [hm, ih rest2 (by simp only [List.length_cons] at h; omega)]
            rw [placeholderSpec, if_pos ⟨rfl, rfl⟩]
          · have hnm : (['\n', '\n'] : PyStr).isPrefixOf ('\n' :: c2 :: rest2) = false := by
              rw [isPrefixOf_cons_cons]
              have : (['\n'] : PyStr).isPrefixOf (c2 :: rest2) = false :=
                isPrefixOf_cons_head_ne rfl (fun heq => hc2 heq.symm)
              simp [this]
            rw [pyReplace_cons_nomatch _ _ _ _ hnm]
            rw [ih (c2 :: rest2) (by simp only [List.length_cons] at h ⊢; omega)]
            rw [placeholderSpec, if_neg (by rintro ⟨-, hx⟩; exact hc2 hx)]
      · have hnm : (['\n', '\n'] : PyStr).isPrefixOf (c :: rest) = false :=
          isPrefixOf_cons_head_ne rfl (fun heq => hc heq.symm)
        rw [pyReplace_cons_nomatch _ _ _ _ hnm]
        rw [ih rest (by omega)]
        match rest with
        | [] => simp [placeholderSpec]
        | c2 :: rest2 =>
          rw [placeholderSpec, if_neg (by rintro ⟨hx, -⟩; exact hc hx)]

/-- The space-pair and tab passes equal the character-level spacing map. -/
lemma spaces_chain_spec :
    ∀ n l, l.length ≤ n →
      (pyReplace l [' ', ' '] nbsp2).flatMap subTab = spacesSpec l := by
  intro n
  induction n with
  | zero =>
    intro l h
    have hl : l = [] := List.eq_nil_of_length_eq_zero (Nat.le_zero.mp h)
    subst hl
    simp [pyReplace_nil, spacesSpec]
  | succ n ih =>
    intro l h
    match l with
    | [] => simp [pyReplace_nil, spacesSpec]
    | c :: rest =>
      simp only [List.length_cons] at h
      by_cases hc : c = ' '
      · subst hc
        match rest with
        | [] =>
          have hnm : ([' ', ' '] : PyStr).isPrefixOf [' '] = false := by decide
          rw [pyReplace_cons_nomatch _ _ _ _ hnm, pyReplace_nil]
          simp [spacesSpec, subTab]
        | c2 :: rest2 =>
          by_cases hc2 : c2 = ' '
          · subst hc2
            have hm := pyReplace_cons_match [' ', ' '] nbsp2 rest2 (by simp)
            simp only [List.cons_append, List.nil_append] at hm
            rw [hm]
            rw [List.flatMap_append, ih rest2 (by simp only [List.length_cons] at h; omega)]
            rw [spacesSpec, if_pos ⟨rfl, rfl⟩]
            have hnb : nbsp2.flatMap subTab = nbsp2 := by decide
            rw [hnb]
          · have hnm : ([' ', ' '] : PyStr).isPrefixOf (' ' :: c2 :: rest2) = false := by
              rw [isPrefixOf_cons_cons]
              have : ([' '] : PyStr).isPrefixOf (c2 :: rest2) = false :=
                isPrefixOf_cons_head_ne rfl (fun heq => hc2 heq.symm)
              simp [this]
            rw [pyReplace_cons_nomatch _ _ _ _ hnm]
            simp only [List.flatMap_cons]
            rw [ih (c2 :: rest2) (by simp only [List.length_cons] at h ⊢; omega)]
            rw [spacesSpec, if_neg (by rintro ⟨-, hx⟩; exact hc2 hx),
              if_neg (by decide)]
            simp [subTab]
      · have hnm : ([' ', ' '] : PyStr).isPrefixOf (c :: rest) = false :=
          isPrefixOf_cons_head_ne rfl (fun heq => hc heq.symm)
        rw [pyReplace_cons_nomatch _ _ _ _ hnm]
        simp only [List.flatMap_cons]
        rw [ih rest (by omega)]
        by_cases ht : c = '\t'
        · subst ht
          have hsub : subTab '\t' = nbsp4 := by simp [subTab]
          rw [hsub]
          match rest with
          | [] => simp [spacesSpec]
          | c2 :: rest2 =>
            rw [spacesSpec, if_neg (by rintro ⟨hx, -⟩; exact absurd hx (by decide)),
              if_pos rfl]
        · have hsub : subTab c = [c] := by simp [subTab, ht]
          rw [hsub]
          match rest with
          | [] => simp [spacesSpec, hc, ht]
          | c2 :: rest2 =>
            rw [spacesSpec, if_neg (by rintro ⟨hx, -⟩; exact hc hx), if_neg ht]
            rfl

private lemma frag_chars : ∀ x ∈ dblBreakFrag, x ≠ '\n' ∧ x ≠ '<' := by decide

private lemma dbl_decomp : DBLBRK = '|' :: (dblBreakFrag ++ ['|', '|', '|']) := by decide

/-- No non-empty suffix of `||DOUBLE_BREAK` is a prefix of the placeholder
followed by anything. -/
private lemma suffix_frag_not_prefix_dbl {p : PyStr} (hs : p <:+ dblBreakFrag)
    (hne : p ≠ []) (Z : PyStr) : p.isPrefixOf (DBLBRK ++ Z) = false := by
  cases hb : p.isPrefixOf (DBLBRK ++ Z) with
  | false => rfl
  | true =>
    exfalso
    have hpre : p <+: DBLBRK ++ Z := List.isPrefixOf_iff_prefix.mp hb
    have hlen : p.length ≤ dblBreakFrag.length := hs.length_le
    have hlen18 : p.length ≤ DBLBRK.length := by
      have h14 : dblBreakFrag.length = 14 := by decide
      have h18 : DBLBRK.length = 18 := by decide
      omega
    have htake : p = (DBLBRK ++ Z).take p.length := List.prefix_iff_eq_take.mp hpre
    rw [List.take_append_of_le_length hlen18] at htake
    have hall : ∀ q ∈ dblBreakFrag.tails, q = [] ∨ q ≠ DBLBRK.take q.length := by decide
    have hmem : p ∈ dblBreakFrag.tails := (List.mem_tails p dblBreakFrag).mpr hs
    rcases hall p hmem with h | h
    · exact hne h
    · exact h htake

/-- If a suffix of `||DOUBLE_BREAK` is a prefix of the placeholder-and-break
converted text, it was already a prefix of the original text: the characters
of the fragment pass through both conversion passes untouched, and the
fragment cannot overlap inserted placeholder or `<br>` blocks. -/
private lemma frag_prefix_transfer :
    ∀ n p rest, p <:+ dblBreakFrag → rest.length ≤ n →
      p.isPrefixOf ((placeholderSpec rest).flatMap subNL) = true →
      p.isPrefixOf rest = true := by
  intro n
  induction n with
  | zero =>
    intro p rest hs hlen hp
    have hr : rest = [] := List.eq_nil_of_length_eq_zero (Nat.le_zero.mp hlen)
    subst hr
    simpa [placeholderSpec] using hp
  | succ n ih =>
    intro p rest hs hlen hp
    match p with
    | [] => cases rest <;> rfl
    | q :: p' =>
      have hq : q ∈ dblBreakFrag := hs.subset (by simp)
      have hqc := frag_chars q hq
      have hpfrag : p' <:+ dblBreakFrag := (List.suffix_cons q p').trans hs
      match rest with
      | [] =>
        exfalso
        simp [placeholderSpec] at hp
      | [d] =>
        by_cases hd : d = '\n'
        · subst hd
          exfalso
          have hX : (placeholderSpec ['\n']).flatMap subNL = brTag := by decide
          rw [hX, show brTag = '<' :: ['b', 'r', '>'] from rfl] at hp
          rw [isPrefixOf_cons_head_ne rfl hqc.2] at hp
          exact Bool.false_ne_true hp
        · have hX : (placeholderSpec [d]).flatMap subNL = [d] := by
            simp [placeholderSpec, subNL, hd]
          rw [hX] at hp
          exact hp
      | d :: e :: rest2 =>
        simp only [List.length_cons] at hlen
        by_cases hde : d = '\n' ∧ e = '\n'
        · exfalso
          obtain ⟨rfl, rfl⟩ := hde
          have hP : placeholderSpec ('\n' :: '\n' :: rest2) =
              DBLBRK ++ placeholderSpec rest2 := by
            rw [placeholderSpec, if_pos ⟨rfl, rfl⟩]
          rw [hP, List.flatMap_append, show DBLBRK.flatMap subNL = DBLBRK by decide] at hp
          rw [suffix_frag_not_prefix_dbl hs (by simp) _] at hp
          exact Bool.false_ne_true hp
        · have hP : placeholderSpec (d :: e :: rest2) =
              d :: placeholderSpec (e :: rest2) := by
            rw [placeholderSpec, if_neg hde]
          rw [hP] at hp
          simp only [List.flatMap_cons] at hp
          by_cases hd : d = '\n'
          · exfalso
            subst hd
            rw [show subNL '\n' = brTag by simp [subNL],
              show brTag = '<' :: ['b', 'r', '>'] from rfl, List.cons_append] at hp
            rw [isPrefixOf_cons_head_ne rfl hqc.2] at hp
            exact Bool.false_ne_true hp
          · rw [show subNL d = [d] by simp [subNL, hd], List.singleton_append,
              isPrefixOf_cons_cons] at hp
            have hparts := (Bool.and_eq_true _ _).mp hp
            have hrec := ih p' (e :: rest2) hpfrag
              (by simp only [List.length_cons]; omega) hparts.2
            rw [isPrefixOf_cons_cons, hparts.1, hrec]
            rfl

/-- Lemma: replacement of the placeholder steps over any pipe-free text. -/
private lemma pyReplace_dbl_skip :
    ∀ (w : PyStr), (∀ x ∈ w, x ≠ '|') → ∀ Y,
      pyReplace (w ++ Y) DBLBRK brTag2 = w ++ pyReplace Y DBLBRK brTag2 := by
  intro w
  induction w with
  | nil => intro _ Y; simp
  | cons x w ih =>
    intro hw Y
    have hx : x ≠ '|' := hw x (by simp)
    have hnm : DBLBRK.isPrefixOf (x :: (w ++ Y)) = false :=
      isPrefixOf_cons_head_ne dbl_decomp (fun heq => hx heq.symm)
    rw [List.cons_append, pyReplace_cons_nomatch _ _ _ _ hnm,
      ih (fun y hy => hw y (List.mem_cons_of_mem x hy)) Y, List.cons_append]

/-- The three break-conversion passes equal the character-level break map,
provided the text does not contain `|||DOUBLE_BREAK`. -/
lemma breaks_chain_spec :
    ∀ n l, l.length ≤ n → containsSeq dblBreakPre l = false →
      pyReplace ((placeholderSpec l).flatMap subNL) DBLBRK brTag2 = breaksSpec l := by
  intro n
  induction n with
  | zero =>
    intro l h _
    have hl : l = [] := List.eq_nil_of_length_eq_zero (Nat.le_zero.mp h)
    subst hl
    simp [pyReplace_nil, placeholderSpec, breaksSpec]
  | succ n ih =>
    intro l h hcs
    match l with
    | [] => simp [pyReplace_nil, placeholderSpec, breaksSpec]
    | c :: rest =>
      simp only [List.length_cons] at h
      have hcs' := (containsSeq_cons_false hcs).2
      by_cases hc : c = '\n'
      · subst hc
        match rest with
        | [] => decide
        | c2 :: rest2 =>
          by_cases hc2 : c2 = '\n'
          · subst hc2
            have hcs2 := (containsSeq_cons_false hcs').2
            have hP : placeholderSpec ('\n' :: '\n' :: rest2) =
                DBLBRK ++ placeholderSpec rest2 := by
              rw [placeholderSpec, if_pos ⟨rfl, rfl⟩]
            rw [hP, List.flatMap_append, show DBLBRK.flatMap subNL = DBLBRK by decide,
              pyReplace_cons_match DBLBRK brTag2 _ (by decide),
              ih rest2 (by simp only [List.length_cons] at h; omega) hcs2,
              breaksSpec, if_pos ⟨rfl, rfl⟩]
          · have hP : placeholderSpec ('\n' :: c2 :: rest2) =
                '\n' :: placeholderSpec (c2 :: rest2) := by
              rw [placeholderSpec, if_neg (by rintro ⟨-, hx⟩; exact hc2 hx)]
            rw [hP]
            simp only [List.flatMap_cons]
            rw [show subNL '\n' = brTag by simp [subNL],
              pyReplace_dbl_skip brTag (by decide) _,
              ih (c2 :: rest2) (by simp only [List.length_cons] at h ⊢; omega) hcs',
              breaksSpec, if_neg (by rintro ⟨-, hx⟩; exact hc2 hx), if_pos rfl]
      · have hP : placeholderSpec (c :: rest) = c :: placeholderSpec rest := by
          match rest with
          | [] => rfl
          | e :: r2 => rw [placeholderSpec, if_neg (by rintro ⟨hx, -⟩; exact hc hx)]
        rw [hP]
        simp only [List.flatMap_cons]
        rw [show subNL c = [c] by simp [subNL, hc], List.singleton_append]
        have hnm : DBLBRK.isPrefixOf (c :: (placeholderSpec rest).flatMap subNL) = false := by
          by_cases hpipe : c = '|'
          · subst hpipe
            cases hb : DBLBRK.isPrefixOf ('|' :: (placeholderSpec rest).flatMap subNL) with
            | false => rfl
            | true =>
              exfalso
              rw [dbl_decomp, isPrefixOf_cons_cons] at hb
              have hb2 := ((Bool.and_eq_true _ _).mp hb).2
              have hfragpre : dblBreakFrag.isPrefixOf ((placeholderSpec rest).flatMap subNL) = true :=
                isPrefixOf_of_append_left hb2
              have htransfer := frag_prefix_transfer n dblBreakFrag rest
                (List.suffix_refl _) (by omega) hfragpre
              have hpre : dblBreakPre.isPrefixOf ('|' :: rest) = true := by
                rw [show dblBreakPre = '|' :: dblBreakFrag from rfl, isPrefixOf_cons_cons,
                  htransfer]
                rfl
              have hfalse := (containsSeq_cons_false hcs).1
              rw [hpre] at hfalse
              exact Bool.false_ne_true hfalse.symm
          · exact isPrefixOf_cons_head_ne dbl_decomp (fun heq => hpipe heq.symm)
        rw [pyReplace_cons_nomatch _ _ _ _ hnm, ih rest (by omega) hcs']
        match rest with
        | [] => simp [breaksSpec, hc]
        | e :: r2 =>
          rw [breaksSpec, if_neg (by rintro ⟨hx, -⟩; exact hc hx), if_neg hc]

end StageLemmas

section SelectionLemmas

private lemma keyLe_refl (p : Nat × Nat) : keyLe p p := Or.inr ⟨rfl, le_rfl⟩

private lemma keyLe_trans {p q r : Nat × Nat} (h1 : keyLe p q) (h2 : keyLe q r) :
    keyLe p r := by
  rcases h1 with h1 | ⟨h1a, h1b⟩ <;> rcases h2 with h2 | ⟨h2a, h2b⟩
  · exact Or.inl (h1.trans h2)
  · exact Or.inl (h2a ▸ h1)
  · exact Or.inl (h1a ▸ h2)
  · exact Or.inr ⟨h1a.trans h2a, h1b.trans h2b⟩

private lemma pickBest_cases (key : Account → Nat × Nat) (b c : Account) :
    pickBest key b c = b ∨ pickBest key b c = c := by
  unfold pickBest
  split
  · exact Or.inr rfl
  · exact Or.inl rfl

private lemma pickBest_le_left (key : Account → Nat × Nat) (b c : Account) :
    keyLe (key (pickBest key b c)) (key b) := by
  unfold pickBest
  split
  · rename_i h
    rcases h with h | ⟨h1, h2⟩
    · exact Or.inl h
    · exact Or.inr ⟨h1, h2.le⟩
  · exact keyLe_refl _

private lemma pickBest_le_right (key : Account → Nat × Nat) (b c : Account) :
    keyLe (key (pickBest key b c)) (key c) := by
  unfold pickBest
  split
  · exact keyLe_refl _
  · rename_i h
    unfold keyLt at h
    push_neg at h
    rcases Nat.lt_or_ge (key b).1 (key c).1 with hlt | hge
    · exact Or.inl hlt
    · have h1 : (key b).1 = (key c).1 := by omega
      exact Or.inr ⟨h1, by have := h.2 h1.symm; omega⟩

private lemma foldl_pickBest_mem (key : Account → Nat × Nat) :
    ∀ (as : List Account) (a : Account), as.foldl (pickBest key) a ∈ a :: as := by
  intro as
  induction as with
  | nil => intro a; simp
  | cons x xs ih =>
    intro a
    have h := ih (pickBest key a x)
    rcases pickBest_cases key a x with hc | hc <;>
      rcases List.mem_cons.mp h with h2 | h2 <;>
      simp [List.foldl_cons, h2, hc] <;> rw [hc] at h2 <;> simp [h2]

private lemma foldl_pickBest_le (key : Account → Nat × Nat) :
    ∀ (as : List Account) (a : Account) (b : Account), b ∈ a :: as →
      keyLe (key (as.foldl (pickBest key) a)) (key b) := by
  intro as
  induction as with
  | nil =>
    intro a b hb
    rcases List.mem_cons.mp hb with rfl | h
    · exact keyLe_refl _
    · simp at h
  | cons x xs ih =>
    intro a b hb
    rcases List.mem_cons.mp hb with rfl | h
    · exact keyLe_trans (ih (pickBest key b x) (pickBest key b x) (by simp))
        (pickBest_le_left key b x)
    · rcases List.mem_cons.mp h with rfl | h2
      · exact keyLe_trans (ih (pickBest key a b) (pickBest key a b) (by simp))
          (pickBest_le_right key a b)
      · exact ih (pickBest key a x) b (List.mem_cons_of_mem _ h2)

/-- Lemma: `pickMinBy` returns a member of the list whose key is minimal. -/
private lemma pickMinBy_spec {key : Account → Nat × Nat} {l : List Account} {m : Account}
    (h : pickMinBy key l = some m) :
    m ∈ l ∧ ∀ b ∈ l, keyLe (key m) (key b) := by
  match l with
  | [] => simp [pickMinBy] at h
  | a :: as =>
    simp only [pickMinBy, Option.some_inj] at h
    subst h
    exact ⟨foldl_pickBest_mem key as a, fun b hb => foldl_pickBest_le key as a b hb⟩

private lemma pickMinBy_nil (key : Account → Nat × Nat) : pickMinBy key [] = none := rfl

private lemma pickMinBy_cons_some (key : Account → Nat × Nat) (a : Account)
    (as : List Account) : ∃ m, pickMinBy key (a :: as) = some m :=
  ⟨as.foldl (pickBest key) a, rfl⟩

private lemma eligibleFilter_eq_true {u : Nat} {a : Account} :
    eligibleFilter u a = true ↔
      a.owner = u ∧ a.is_active = true ∧ a.sent_count < EMAIL_LIMIT_PER_ACCOUNT := by
  simp [eligibleFilter, Bool.and_eq_true, and_assoc]

private lemma activeFilter_eq_true {u : Nat} {a : Account} :
    activeFilter u a = true ↔ a.owner = u ∧ a.is_active = true := by
  simp [activeFilter, Bool.and_eq_true]

end SelectionLemmas

section LogLemmas

private lemma foldl_append_map {α β : Type} (f : α → β) (l : List α) :
    ∀ init : List β, l.foldl (fun acc e => acc ++ [f e]) init = init ++ l.map f := by
  induction l with
  | nil => intro init; simp
  | cons x xs ih => intro init; simp [List.foldl_cons, ih]

private lemma foldl_filter_map {α β : Type} (p : α → Bool) (f : α → β) (l : List α) :
    ∀ init : List β,
      l.foldl (fun acc e => if p e then acc ++ [f e] else acc) init =
        init ++ (l.filter p).map f := by
  induction l with
  | nil => intro init; simp
  | cons x xs ih =>
    intro init
    by_cases hp : p x = true
    · simp [List.foldl_cons, List.filter_cons, hp, ih]
    · simp only [Bool.not_eq_true] at hp
      simp [List.foldl_cons, List.filter_cons, hp, ih]

end LogLemmas

private lemma parse_guard (s : PyStr) :
    (if s ≠ [] then parse_email_list s else []) = parse_email_list s := by
  by_cases hs : s = []
  · simp [hs, parse_email_list]
  · simp [hs]

/-- C5: `merge_cc_bcc_lists` splits each of the four comma-separated inputs,
trims entries, drops empties, and returns CC (resp. BCC) as the
ordered-unique concatenation of form entries followed by default entries,
first occurrence winning and order preserved; in particular
`mergeLists("a@x,b@x", "", "b@x,c@x", "")` yields CC = `[a@x, b@x, c@x]`. -/
theorem merge_cc_bcc_lists_spec :
    (∀ form_cc form_bcc default_cc default_bcc : PyStr,
      (merge_cc_bcc_lists form_cc form_bcc default_cc default_bcc).1 =
        orderedUniqueSpec (parse_email_list form_cc ++ parse_email_list default_cc) ∧
      (merge_cc_bcc_lists form_cc form_bcc default_cc default_bcc).2 =
        orderedUniqueSpec (parse_email_list form_bcc ++ parse_email_list default_bcc)) ∧
    merge_cc_bcc_lists (pyStr "a@x,b@x") [] (pyStr "b@x,c@x") [] =
      ([pyStr "a@x", pyStr "b@x", pyStr "c@x"], []) := by
  constructor
  · intro fc fb dc dbc
    simp only [merge_cc_bcc_lists, parse_guard, dict_fromkeys_eq_spec]
    trivial
  · decide

/-- C6: one call to `reset_daily_counts(owner)` zeroes `sent_count` and sets
`last_reset := today` for exactly those accounts of the owner whose `last_reset`
predates today, leaves every other account unchanged, and a second call the
same day is a no-op. -/
theorem reset_daily_counts_spec (u t : Nat) (db : List Account) :
    (reset_daily_counts u t db).length = db.length ∧
    (∀ (i : Nat) (a : Account), db[i]? = some a →
      (reset_daily_counts u t db)[i]? =
        some (if a.owner = u ∧ a.last_reset < t then
          { a with sent_count := 0, last_reset := t } else a)) ∧
    reset_daily_counts u t (reset_daily_counts u t db) = reset_daily_counts u t db := by
  refine ⟨by simp [reset_daily_counts], ?_, ?_⟩
  · intro i a ha
    simp [reset_daily_counts, List.getElem?_map, ha]
  · simp only [reset_daily_counts, List.map_map]
    apply List.map_congr_left
    intro a _
    by_cases hcond : a.owner = u ∧ a.last_reset < t
    · simp only [Function.comp_apply, if_pos hcond]
      rw [if_neg]
      rintro ⟨-, hlt⟩
      exact lt_irrefl t hlt
    · simp only [Function.comp_apply, if_neg hcond, if_neg hcond]

/-- Witness for C6 at a concrete database: a stale account of the owner is
reset, a same-day account and an account of another owner are untouched, and the
reset is idempotent. -/
theorem reset_daily_counts_spec_witness :
    (reset_daily_counts 1 5 [⟨1, "a", "p", true, 10, 4, "", "", 0⟩,
        ⟨1, "b", "p", true, 3, 5, "", "", 1⟩, ⟨2, "c", "p", true, 7, 4, "", "", 2⟩])[0]? =
      some ⟨1, "a", "p", true, 0, 5, "", "", 0⟩ ∧
    (reset_daily_counts 1 5 [⟨1, "a", "p", true, 10, 4, "", "", 0⟩,
        ⟨1, "b", "p", true, 3, 5, "", "", 1⟩, ⟨2, "c", "p", true, 7, 4, "", "", 2⟩])[1]? =
      some ⟨1, "b", "p", true, 3, 5, "", "", 1⟩ ∧
    (reset_daily_counts 1 5 [⟨1, "a", "p", true, 10, 4, "", "", 0⟩,
        ⟨1, "b", "p", true, 3, 5, "", "", 1⟩, ⟨2, "c", "p", true, 7, 4, "", "", 2⟩])[2]? =
      some ⟨2, "c", "p", true, 7, 4, "", "", 2⟩ ∧
    reset_daily_counts 1 5 (reset_daily_counts 1 5 [⟨1, "a", "p", true, 10, 4, "", "", 0⟩,
        ⟨1, "b", "p", true, 3, 5, "", "", 1⟩, ⟨2, "c", "p", true, 7, 4, "", "", 2⟩]) =
      reset_daily_counts 1 5 [⟨1, "a", "p", true, 10, 4, "", "", 0⟩,
        ⟨1, "b", "p", true, 3, 5, "", "", 1⟩, ⟨2, "c", "p", true, 7, 4, "", "", 2⟩] := by
  refine ⟨?_, ?_, ?_,
    (reset_daily_counts_spec 1 5 _).2.2⟩
  · have h := (reset_daily_counts_spec 1 5 [⟨1, "a", "p", true, 10, 4, "", "", 0⟩,
        ⟨1, "b", "p", true, 3, 5, "", "", 1⟩, ⟨2, "c", "p", true, 7, 4, "", "", 2⟩]).2.1 0
      ⟨1, "a", "p", true, 10, 4, "", "", 0⟩ rfl
    rw [if_pos ⟨rfl, by decide⟩] at h
    exact h
  · have h := (reset_daily_counts_spec 1 5 [⟨1, "a", "p", true, 10, 4, "", "", 0⟩,
        ⟨1, "b", "p", true, 3, 5, "", "", 1⟩, ⟨2, "c", "p", true, 7, 4, "", "", 2⟩]).2.1 1
      ⟨1, "b", "p", true, 3, 5, "", "", 1⟩ rfl
    rw [if_neg (by decide)] at h
    exact h
  · have h := (reset_daily_counts_spec 1 5 [⟨1, "a", "p", true, 10, 4, "", "", 0⟩,
        ⟨1, "b", "p", true, 3, 5, "", "", 1⟩, ⟨2, "c", "p", true, 7, 4, "", "", 2⟩]).2.1 2
      ⟨2, "c", "p", true, 7, 4, "", "", 2⟩ rfl
    rw [if_neg (by decide)] at h
    exact h

/-- C7: the counter update of `send_email_smtp` increments `sent_count` by
exactly 1 for accounts matching both the owner and the sender email, and
leaves every other account — including one with the same email under a
different owner — unchanged. -/
theorem record_send_scoped (u : Nat) (e : String) (db : List Account) :
    (∀ (i : Nat) (a : Account), db[i]? = some a → a.email = e → a.owner = u →
      (record_send u e db)[i]? = some { a with sent_count := a.sent_count + 1 }) ∧
    (∀ (i : Nat) (a : Account), db[i]? = some a → ¬(a.email = e ∧ a.owner = u) →
      (record_send u e db)[i]? = some a) := by
  constructor
  · intro i a ha he ho
    simp [record_send, List.getElem?_map, ha, he, ho]
  · intro i a ha hne
    simp [record_send, List.getElem?_map, ha, hne]

/-- Witness for C7: two tenants own the same external mailbox address;
recording a send for tenant 1 increments only the row of tenant 1. -/
theorem record_send_scoped_witness :
    (record_send 1 "s@x" [⟨1, "s@x", "p", true, 3, 9, "", "", 0⟩,
        ⟨2, "s@x", "p", true, 7, 9, "", "", 1⟩])[0]? =
      some ⟨1, "s@x", "p", true, 4, 9, "", "", 0⟩ ∧
    (record_send 1 "s@x" [⟨1, "s@x", "p", true, 3, 9, "", "", 0⟩,
        ⟨2, "s@x", "p", true, 7, 9, "", "", 1⟩])[1]? =
      some ⟨2, "s@x", "p", true, 7, 9, "", "", 1⟩ :=
  ⟨(record_send_scoped 1 "s@x" _).1 0 ⟨1, "s@x", "p", true, 3, 9, "", "", 0⟩ rfl rfl rfl,
   (record_send_scoped 1 "s@x" _).2 1 ⟨2, "s@x", "p", true, 7, 9, "", "", 1⟩ rfl
     (by rintro ⟨-, h⟩; exact absurd h (by decide))⟩

/-- C9: the HTML part of the assembled message depends only on the body text:
two invocations with equal bodies yield equal HTML parts regardless of
sender, recipient, subject or CC context. -/
theorem html_part_depends_only_on_body (s1 r1 : String) (subj1 : PyStr)
    (cc1 : Option (List String)) (s2 r2 : String) (subj2 : PyStr)
    (cc2 : Option (List String)) (body1 body2 : PyStr) (h : body1 = body2) :
    (build_email_message s1 r1 subj1 body1 cc1).html_part =
      (build_email_message s2 r2 subj2 body2 cc2).html_part := by
  subst h
  rfl

/-- Witness for C9: two different sender/recipient/subject/CC contexts with
the same body produce the same HTML part. -/
theorem html_part_depends_only_on_body_witness :
    (build_email_message "a@x" "r@x" (pyStr "hello") (pyStr "Hi there") none).html_part =
      (build_email_message "b@y" "q@z" (pyStr "other") (pyStr "Hi there")
        (some ["c@c"])).html_part :=
  html_part_depends_only_on_body "a@x" "r@x" (pyStr "hello") none "b@y" "q@z"
    (pyStr "other") (some ["c@c"]) (pyStr "Hi there") (pyStr "Hi there") rfl

/-- C10: when `send_email_smtp` reports failure the account database is
untouched (the counter update runs only after the SMTP transmission), and
when it reports success the counter of the `(owner, sender email)` account is
incremented by exactly 1, all other rows unchanged. -/
theorem send_email_smtp_counter (tr : TransportResult) (u : Nat) (e : String)
    (db : List Account) :
    ((send_email_smtp tr u e db).success = false → (send_email_smtp tr u e db).db = db) ∧
    ((send_email_smtp tr u e db).success = true →
      ∀ (i : Nat) (a : Account), db[i]? = some a →
        ((send_email_smtp tr u e db).db)[i]? =
          some (if a.email = e ∧ a.owner = u then
            { a with sent_count := a.sent_count + 1 } else a)) := by
  cases tr with
  | err m =>
    refine ⟨fun _ => rfl, fun hs => ?_⟩
    simp [send_email_smtp] at hs
  | ok =>
    refine ⟨fun hf => ?_, fun _ i a ha => ?_⟩
    · simp [send_email_smtp] at hf
    · simp [send_email_smtp, record_send, List.getElem?_map, ha]

/-- Witness for C10: a failed transmission leaves the database unchanged, a
successful one increments the matching account. -/
theorem send_email_smtp_counter_witness :
    (send_email_smtp (.err "boom") 1 "s@x"
        [⟨1, "s@x", "p", true, 3, 9, "", "", 0⟩]).db =
      [⟨1, "s@x", "p", true, 3, 9, "", "", 0⟩] ∧
    ((send_email_smtp .ok 1 "s@x" [⟨1, "s@x", "p", true, 3, 9, "", "", 0⟩]).db)[0]? =
      some ⟨1, "s@x", "p", true, 4, 9, "", "", 0⟩ := by
  constructor
  · exact (send_email_smtp_counter (.err "boom") 1 "s@x"
      [⟨1, "s@x", "p", true, 3, 9, "", "", 0⟩]).1 rfl
  · have h := (send_email_smtp_counter .ok 1 "s@x"
      [⟨1, "s@x", "p", true, 3, 9, "", "", 0⟩]).2 rfl 0
      ⟨1, "s@x", "p", true, 3, 9, "", "", 0⟩ rfl
    rw [if_pos ⟨rfl, rfl⟩] at h
    exact h

/-- C2 counterexample: a failure-list entry with no colon produces no
`email_status` row, so the row count falls short of
`|success| + |failed|` as the claim states it. -/
theorem save_email_log_status_rows_counterexample :
    ¬ ((save_email_log_status_rows (some (pyStr "s@x")) [] [pyStr "boom"]).length =
      ([] : List PyStr).length + ([pyStr "boom"] : List PyStr).length) := by decide

/-- C2 (amended): `save_email_log` inserts one `success` row per success-list
entry and one `failed` row (with trimmed recipient and error detail) per
failure-list entry that contains a colon; entries without a colon are
skipped, so the row count is `|success| + |failures containing a colon|`. -/
theorem save_email_log_status_rows_spec (sender : Option PyStr)
    (success_emails failed_emails : List PyStr) :
    save_email_log_status_rows sender success_emails failed_emails =
      success_emails.map (mkSuccessRow sender) ++
        (failed_emails.filter (fun f => f.contains ':')).map (mkFailedRow sender) ∧
    (save_email_log_status_rows sender success_emails failed_emails).length =
      success_emails.length +
        (failed_emails.filter (fun f => f.contains ':')).length := by
  have h : save_email_log_status_rows sender success_emails failed_emails =
      success_emails.map (mkSuccessRow sender) ++
        (failed_emails.filter (fun f => f.contains ':')).map (mkFailedRow sender) := by
    simp only [save_email_log_status_rows]
    rw [foldl_append_map (mkSuccessRow sender) success_emails,
      foldl_filter_map (fun f => f.contains ':') (mkFailedRow sender) failed_emails]
    simp
  exact ⟨h, by rw [h]; simp⟩

/-- C1: in manual mode, when the pinned active account of the requester has
remaining daily quota (after the daily reset) smaller than the number of
valid recipients, the campaign is rejected up front with shortfall
`requested - remaining` and performs zero transport calls. -/
theorem manual_mode_quota_reject (u t : Nat) (sender : String)
    (valid_recipients : List String) (db : List Account) (acc : Account)
    (hfind : (reset_daily_counts u t db).find?
        (fun a => a.owner == u && a.email == sender && a.is_active) = some acc)
    (hq : EMAIL_LIMIT_PER_ACCOUNT - acc.sent_count < valid_recipients.length) :
    send_bulk_emails_single_sender u t sender valid_recipients db =
      ManualOutcome.rejectedShortfall
        (valid_recipients.length - (EMAIL_LIMIT_PER_ACCOUNT - acc.sent_count)) ∧
    manualTransportCalls
      (send_bulk_emails_single_sender u t sender valid_recipients db) = 0 := by
  have h : send_bulk_emails_single_sender u t sender valid_recipients db =
      ManualOutcome.rejectedShortfall
        (valid_recipients.length - (EMAIL_LIMIT_PER_ACCOUNT - acc.sent_count)) := by
    simp only [send_bulk_emails_single_sender]
    rw [hfind]
    simp [hq]
  exact ⟨h, by rw [h]; rfl⟩

/-- Witness for C1: a pinned account with `sent_count = 10` (remaining 5)
and six valid recipients is rejected with shortfall 1 and zero transport
calls. -/
theorem manual_mode_quota_reject_witness :
    send_bulk_emails_single_sender 1 5 "s@x" ["r1", "r2", "r3", "r4", "r5", "r6"]
        [⟨1, "s@x", "p", true, 10, 5, "", "", 0⟩] =
      ManualOutcome.rejectedShortfall 1 ∧
    manualTransportCalls (send_bulk_emails_single_sender 1 5 "s@x"
        ["r1", "r2", "r3", "r4", "r5", "r6"]
        [⟨1, "s@x", "p", true, 10, 5, "", "", 0⟩]) = 0 :=
  manual_mode_quota_reject 1 5 "s@x" ["r1", "r2", "r3", "r4", "r5", "r6"]
    [⟨1, "s@x", "p", true, 10, 5, "", "", 0⟩] ⟨1, "s@x", "p", true, 10, 5, "", "", 0⟩
    (by decide) (by decide)

/-- C4: when the owner has at least one active account strictly under the
daily limit (after the daily reset), `get_available_sender` returns one of
those accounts, with minimal `sent_count`, ties broken by earliest
`created_at`. -/
theorem get_available_sender_min_quota (u t : Nat) (db : List Account)
    (h : ∃ a ∈ reset_daily_counts u t db,
      a.owner = u ∧ a.is_active = true ∧ a.sent_count < EMAIL_LIMIT_PER_ACCOUNT) :
    ∃ a, get_available_sender u t db =
        some (a.email, a.password, a.default_cc, a.default_bcc) ∧
      a ∈ reset_daily_counts u t db ∧ a.owner = u ∧ a.is_active = true ∧
      a.sent_count < EMAIL_LIMIT_PER_ACCOUNT ∧
      ∀ b ∈ reset_daily_counts u t db,
        b.owner = u → b.is_active = true → b.sent_count < EMAIL_LIMIT_PER_ACCOUNT →
          a.sent_count < b.sent_count ∨
            (a.sent_count = b.sent_count ∧ a.created_at ≤ b.created_at) := by
  obtain ⟨w, hw, hwp⟩ := h
  have hwF : w ∈ (reset_daily_counts u t db).filter (eligibleFilter u) :=
    List.mem_filter.mpr ⟨hw, eligibleFilter_eq_true.mpr hwp⟩
  obtain ⟨x, xs, hF⟩ : ∃ x xs,
      (reset_daily_counts u t db).filter (eligibleFilter u) = x :: xs := by
    cases hFe : (reset_daily_counts u t db).filter (eligibleFilter u) with
    | nil => rw [hFe] at hwF; simp at hwF
    | cons x xs => exact ⟨x, xs, rfl⟩
  obtain ⟨m, hm⟩ := pickMinBy_cons_some senderKey x xs
  have hm' : pickMinBy senderKey
      ((reset_daily_counts u t db).filter (eligibleFilter u)) = some m := by
    rw [hF]; exact hm
  obtain ⟨hmem, hmin⟩ := pickMinBy_spec hm'
  have hmemdb := List.mem_filter.mp hmem
  have hmp := eligibleFilter_eq_true.mp hmemdb.2
  refine ⟨m, ?_, hmemdb.1, hmp.1, hmp.2.1, hmp.2.2, ?_⟩
  · simp only [get_available_sender]
    rw [hm']
  · intro b hb hbo hba hbc
    have hbF : b ∈ (reset_daily_counts u t db).filter (eligibleFilter u) :=
      List.mem_filter.mpr ⟨hb, eligibleFilter_eq_true.mpr ⟨hbo, hba, hbc⟩⟩
    have hle := hmin b hbF
    unfold keyLe senderKey at hle
    exact hle

/-- Witness for C4: three active accounts with sent counts 5, 2, 2; the
account with count 2 created earliest is selected. -/
theorem get_available_sender_min_quota_witness :
    ∃ a, get_available_sender 1 9
        [⟨1, "a", "p", true, 5, 9, "", "", 0⟩, ⟨1, "b", "p", true, 2, 9, "", "", 1⟩,
          ⟨1, "c", "p", true, 2, 9, "", "", 2⟩] =
        some (a.email, a.password, a.default_cc, a.default_bcc) ∧
      a ∈ reset_daily_counts 1 9
        [⟨1, "a", "p", true, 5, 9, "", "", 0⟩, ⟨1, "b", "p", true, 2, 9, "", "", 1⟩,
          ⟨1, "c", "p", true, 2, 9, "", "", 2⟩] ∧
      a.owner = 1 ∧ a.is_active = true ∧ a.sent_count < EMAIL_LIMIT_PER_ACCOUNT ∧
      ∀ b ∈ reset_daily_counts 1 9
        [⟨1, "a", "p", true, 5, 9, "", "", 0⟩, ⟨1, "b", "p", true, 2, 9, "", "", 1⟩,
          ⟨1, "c", "p", true, 2, 9, "", "", 2⟩],
        b.owner = 1 → b.is_active = true → b.sent_count < EMAIL_LIMIT_PER_ACCOUNT →
          a.sent_count < b.sent_count ∨
            (a.sent_count = b.sent_count ∧ a.created_at ≤ b.created_at) :=
  get_available_sender_min_quota 1 9
    [⟨1, "a", "p", true, 5, 9, "", "", 0⟩, ⟨1, "b", "p", true, 2, 9, "", "", 1⟩,
      ⟨1, "c", "p", true, 2, 9, "", "", 2⟩] (by decide)

/-- C3: when every active account of the owner is at or above the daily
limit, `get_available_sender` still returns the earliest-created active
account rather than failing; with no active account at all it returns the
all-`None` signal. -/
theorem get_available_sender_exhausted_or_none (u t : Nat) (db : List Account) :
    ((∃ a ∈ reset_daily_counts u t db, a.owner = u ∧ a.is_active = true) →
     (∀ a ∈ reset_daily_counts u t db, a.owner = u → a.is_active = true →
        EMAIL_LIMIT_PER_ACCOUNT ≤ a.sent_count) →
     ∃ a, get_available_sender u t db =
         some (a.email, a.password, a.default_cc, a.default_bcc) ∧
       a ∈ reset_daily_counts u t db ∧ a.owner = u ∧ a.is_active = true ∧
       ∀ b ∈ reset_daily_counts u t db, b.owner = u → b.is_active = true →
         a.created_at ≤ b.created_at) ∧
    ((∀ a ∈ reset_daily_counts u t db, ¬(a.owner = u ∧ a.is_active = true)) →
     get_available_sender u t db = none) := by
  constructor
  · intro h1 h2
    have hF1 : (reset_daily_counts u t db).filter (eligibleFilter u) = [] := by
      rw [List.filter_eq_nil_iff]
      intro a ha hcon
      obtain ⟨ho, hact, hlt⟩ := eligibleFilter_eq_true.mp hcon
      exact absurd hlt (Nat.not_lt.mpr (h2 a ha ho hact))
    obtain ⟨w, hw, hwo, hwa⟩ := h1
    have hwF : w ∈ (reset_daily_counts u t db).filter (activeFilter u) :=
      List.mem_filter.mpr ⟨hw, activeFilter_eq_true.mpr ⟨hwo, hwa⟩⟩
    obtain ⟨x, xs, hF⟩ : ∃ x xs,
        (reset_daily_counts u t db).filter (activeFilter u) = x :: xs := by
      cases hFe : (reset_daily_counts u t db).filter (activeFilter u) with
      | nil => rw [hFe] at hwF; simp at hwF
      | cons x xs => exact ⟨x, xs, rfl⟩
    obtain ⟨m, hm⟩ := pickMinBy_cons_some createdKey x xs
    have hm' : pickMinBy createdKey
        ((reset_daily_counts u t db).filter (activeFilter u)) = some m := by
      rw [hF]; exact hm
    obtain ⟨hmem, hmin⟩ := pickMinBy_spec hm'
    have hmemdb := List.mem_filter.mp hmem
    have hmp := activeFilter_eq_true.mp hmemdb.2
    refine ⟨m, ?_, hmemdb.1, hmp.1, hmp.2, ?_⟩
    · simp only [get_available_sender]
      rw [hF1, pickMinBy_nil, hm']
    · intro b hb hbo hba
      have hbF : b ∈ (reset_daily_counts u t db).filter (activeFilter u) :=
        List.mem_filter.mpr ⟨hb, activeFilter_eq_true.mpr ⟨hbo, hba⟩⟩
      have hle := hmin b hbF
      unfold keyLe createdKey at hle
      rcases hle with hle | ⟨hle, -⟩
      · exact hle.le
      · exact hle.le
  · intro hnone
    have hF1 : (reset_daily_counts u t db).filter (eligibleFilter u) = [] := by
      rw [List.filter_eq_nil_iff]
      intro a ha hcon
      obtain ⟨ho, hact, -⟩ := eligibleFilter_eq_true.mp hcon
      exact hnone a ha ⟨ho, hact⟩
    have hF2 : (reset_daily_counts u t db).filter (activeFilter u) = [] := by
      rw [List.filter_eq_nil_iff]
      intro a ha hcon
      obtain ⟨ho, hact⟩ := activeFilter_eq_true.mp hcon
      exact hnone a ha ⟨ho, hact⟩
    simp only [get_available_sender]
    rw [hF1, pickMinBy_nil, hF2, pickMinBy_nil]

/-- Witness for C3: three accounts all at the limit 15 select the
earliest-created one; an owner with no active account gets the all-`None`
signal. -/
theorem get_available_sender_exhausted_or_none_witness :
    (∃ a, get_available_sender 1 9
        [⟨1, "a", "p", true, 15, 9, "", "", 5⟩, ⟨1, "b", "p", true, 15, 9, "", "", 3⟩,
          ⟨1, "c", "p", true, 15, 9, "", "", 7⟩] =
        some (a.email, a.password, a.default_cc, a.default_bcc) ∧
      a ∈ reset_daily_counts 1 9
        [⟨1, "a", "p", true, 15, 9, "", "", 5⟩, ⟨1, "b", "p", true, 15, 9, "", "", 3⟩,
          ⟨1, "c", "p", true, 15, 9, "", "", 7⟩] ∧
      a.owner = 1 ∧ a.is_active = true ∧
      ∀ b ∈ reset_daily_counts 1 9
        [⟨1, "a", "p", true, 15, 9, "", "", 5⟩, ⟨1, "b", "p", true, 15, 9, "", "", 3⟩,
          ⟨1, "c", "p", true, 15, 9, "", "", 7⟩],
        b.owner = 1 → b.is_active = true → a.created_at ≤ b.created_at) ∧
    get_available_sender 1 9 [⟨2, "z", "p", false, 0, 9, "", "", 0⟩] = none :=
  ⟨(get_available_sender_exhausted_or_none 1 9
      [⟨1, "a", "p", true, 15, 9, "", "", 5⟩, ⟨1, "b", "p", true, 15, 9, "", "", 3⟩,
        ⟨1, "c", "p", true, 15, 9, "", "", 7⟩]).1 (by decide) (by decide),
   (get_available_sender_exhausted_or_none 1 9
      [⟨2, "z", "p", false, 0, 9, "", "", 0⟩]).2 (by decide)⟩

/-- C8 (amended): for every body text whose escaped, newline-normalized form
does not contain the internal placeholder prefix `|||DOUBLE_BREAK`,
`format_email_content` applies, in order: HTML-escape each character,
normalize CRLF/CR to LF, map blank lines to two `<br>` tags and single
breaks to one, map space pairs to two `&nbsp;` and tabs to four, and wrap in
the fixed-style container. -/
theorem format_email_content_stages (content : PyStr)
    (h : containsSeq dblBreakPre (normalizeSpec (escapeSpec content)) = false) :
    format_email_content content =
      wrapDiv (spacesSpec (breaksSpec (normalizeSpec (escapeSpec content)))) := by
  have hnorm : pyReplace (pyReplace (escapeSpec content) ['\r', '\n'] ['\n'])
      ['\r'] ['\n'] = normalizeSpec (escapeSpec content) := by
    rw [pyReplace_single]
    exact normalize_chain_spec (escapeSpec content).length _ le_rfl
  have hbr : pyReplace (pyReplace (pyReplace (normalizeSpec (escapeSpec content))
        ['\n', '\n'] DBLBRK) ['\n'] brTag) DBLBRK brTag2 =
      breaksSpec (normalizeSpec (escapeSpec content)) := by
    rw [placeholder_chain_spec (normalizeSpec (escapeSpec content)).length _ le_rfl,
      pyReplace_single]
    exact breaks_chain_spec (normalizeSpec (escapeSpec content)).length _ le_rfl h
  have hsp : pyReplace (pyReplace (breaksSpec (normalizeSpec (escapeSpec content)))
        [' ', ' '] nbsp2) ['\t'] nbsp4 =
      spacesSpec (breaksSpec (normalizeSpec (escapeSpec content))) := by
    rw [pyReplace_single]
    exact spaces_chain_spec (breaksSpec (normalizeSpec (escapeSpec content))).length _ le_rfl
  simp only [format_email_content]
  rw [html_escape_eq_spec, hnorm, hbr, hsp]

set_option maxRecDepth 100000 in
/-- C8 counterexample: on a body that already contains the literal
placeholder text `|||DOUBLE_BREAK|||`, the code converts it to `<br><br>`,
so the output differs from the claimed stage-by-stage transformation. -/
theorem format_email_content_stages_counterexample :
    format_email_content DBLBRK ≠
      wrapDiv (spacesSpec (breaksSpec (normalizeSpec (escapeSpec DBLBRK)))) := by
  intro h
  have hcode : format_email_content DBLBRK = wrapDiv brTag2 := by decide
  have hspec : spacesSpec (breaksSpec (normalizeSpec (escapeSpec DBLBRK))) = DBLBRK := by
    decide
  rw [hcode, hspec] at h
  unfold wrapDiv at h
  have h2 := List.append_cancel_left (List.append_cancel_right h)
  exact absurd h2 (by decide)

set_option maxRecDepth 100000 in
/-- Witness for C8 at a body exercising escaping, CRLF, blank lines, space
pairs and tabs. -/
theorem format_email_content_stages_witness :
    containsSeq dblBreakPre
      (normalizeSpec (escapeSpec (pyStr "a<b&c\r\nd\n\ne  f\tg"))) = false ∧
    format_email_content (pyStr "a<b&c\r\nd\n\ne  f\tg") =
      wrapDiv (spacesSpec (breaksSpec (normalizeSpec
        (escapeSpec (pyStr "a<b&c\r\nd\n\ne  f\tg"))))) :=
  ⟨by decide, format_email_content_stages (pyStr "a<b&c\r\nd\n\ne  f\tg") (by decide)⟩
